import Mathlib

/-!
Verification of the marker-based region engine of `snippetsync` (`src/Sync.js`,
plus the TypeScript `Snippet` variant shipped alongside it).

The development shallowly embeds the JavaScript code: strings are Lean
`String`s, JS arrays are Lean lists, the mutable per-line scans of
`getSplicedFile`, `getClearedFile` and `extractSnippets` become explicit
state-passing recursions, and every JS runtime failure (indexing a `null`
regexp match, `JSON.parse` throwing, indexing an `undefined` array slot)
becomes an explicit error value.  The live-array iteration of
`getSplicedFile` (`for .. of staticFile.lines.entries()` while `spliceFile`
mutates the very same array in place) is modelled by a fuel-indexed loop over
the current array and the iterator's numeric cursor, exactly as a JS array
iterator behaves under mutation.
-/

namespace SnippetSync

/-- JS `\s` test for the characters that can occur inside a single text line
(space, tab, and the ASCII control whitespace characters). -/
def isWs (c : Char) : Bool :=
  c = ' ' || c = '\t' || c = '\n' || c = '\r' || c = '\x0b' || c = '\x0c'

/-- `isLeading n l` is true when `n` is a leading segment of `l`. -/
def isLeading : List Char → List Char → Bool
  | [], _ => true
  | _ :: _, [] => false
  | a :: as, b :: bs => a = b && isLeading as bs

/-- Remove a leading segment: `takeAway n l = some r` iff `l = n ++ r`. -/
def takeAway : List Char → List Char → Option (List Char)
  | [], l => some l
  | _ :: _, [] => none
  | a :: as, b :: bs => if a = b then takeAway as bs else none

/-- `containsSeg n l` is true when `n` occurs as a contiguous segment of `l`. -/
def containsSeg (n : List Char) : List Char → Bool
  | [] => isLeading n []
  | l@(_ :: rest) => isLeading n l || containsSeg n rest

/-- Model of JS `haystack.includes(needle)`. -/
def jsIncludes (haystack needle : String) : Bool :=
  containsSeg needle.toList haystack.toList

/-- Model of JS `String.prototype.split` with a one-character separator,
as used by `determineExtension` (`path.split(".")`) and
`Snippet.buildPath` / `Snippet.buildURL` (`directory.split('/')`). -/
def splitOnChar (sep : Char) : List Char → List (List Char)
  | [] => [[]]
  | c :: rest =>
    if c = sep then [] :: splitOnChar sep rest
    else
      match splitOnChar sep rest with
      | s :: ss => (c :: s) :: ss
      | [] => [[c]]

/-- JS `s.split(sep)` at the `String` level. -/
def jsSplit (sep : Char) (s : String) : List String :=
  (splitOnChar sep s.toList).map String.mk

/-- `determineExtension` from `Sync.js`: split the path on `"."` and return
the last part (`parts[parts.length - 1]`; the split list is never empty). -/
def determineExtension (path : String) : String :=
  (jsSplit '.' path).getLastD ""

/-- The `{ name, directory }` descriptors produced for each source file
(`glob`/`anzip` results), consumed as `item` by the extractor and stored as
`filePath` inside a `Snippet`. -/
structure PathInfo where
  directory : String
  name : String
deriving DecidableEq, Repr

/-- The `Snippet` class of `Sync.js`: id, extension, origin owner/repo/ref and
path, plus the captured lines.  A JS `undefined` ref is `none`. -/
structure Snippet where
  id : String
  ext : String
  owner : String
  repo : String
  ref : Option String
  filePath : PathInfo
  lines : List String
deriving DecidableEq, Repr

/-- Modelled from the spec: `markdownCodeTicks` comes from `common.js`, which
is not under `src/`; per the Formatter contract it is the closing fence line
with no language tag. -/
def markdownCodeTicks : String := "```"

/-- Modelled from the spec: `fmtStartCodeBlock` comes from `common.js`, which
is not under `src/`; per the Formatter contract it is an opening fence line
tagged with the snippet's extension. -/
def fmtStartCodeBlock (ext : String) : String := "```" ++ ext

/-- `Snippet.buildPath`: directory segments after the first, joined with the
filename by `/`. -/
def Snippet.buildPath (s : Snippet) : String :=
  let sourceURLParts := jsSplit '/' s.filePath.directory
  String.intercalate "/" (sourceURLParts.drop 1 ++ [s.filePath.name])

/-- `Snippet.buildURL`: the GitHub blob URL of the snippet source; the ref
defaults to `"master"` when it is the empty string or `undefined`. -/
def Snippet.buildURL (s : Snippet) : String :=
  let sourceURLParts := jsSplit '/' s.filePath.directory
  let ref :=
    match s.ref with
    | some r => if r = "" then "master" else r
    | none => "master"
  String.intercalate "/"
    (["https://github.com", s.owner, s.repo, "blob", ref]
      ++ sourceURLParts.drop 1 ++ [s.filePath.name])

/-- `Snippet.fmtSourceLink`: a markdown link `[path](url)`. -/
def Snippet.fmtSourceLink (s : Snippet) : String :=
  "[" ++ s.buildPath ++ "](" ++ s.buildURL ++ ")"

/-- `Snippet.fmt` from `Sync.js`: build a fresh array of rendered lines
(optional source link, opening fence, the captured lines, closing fence). -/
def Snippet.fmt (s : Snippet) (fmtSourceLink : Bool) : List String :=
  (if fmtSourceLink then [s.fmtSourceLink] else [])
    ++ fmtStartCodeBlock s.ext :: (s.lines ++ [markdownCodeTicks])

/-- The call `snippet.fmt(flag)` of `Sync.js` as a method on the object state:
the body only reads `this.lines` and never assigns to it, so the snippet
value after the call is the receiver itself. -/
def Snippet.fmtCall (s : Snippet) (fmtSourceLink : Bool) : List String × Snippet :=
  (s.fmt fmtSourceLink, s)

/-- `fmt` of the TypeScript `Snippet` variant: it splices the opening fence,
the closing ticks and (optionally) the source link directly into
`this.lines`, returning nothing; the updated object is the result. -/
def Snippet.fmtTS (s : Snippet) (fmtSourceLink : Bool) : Snippet :=
  let l₁ := fmtStartCodeBlock s.ext :: s.lines
  let l₂ := l₁ ++ [markdownCodeTicks]
  let l₃ := if fmtSourceLink then s.fmtSourceLink :: l₂ else l₂
  { s with lines := l₃ }

/-- Modelled from the spec: the marker token set lives in `common.js`, which
is not under `src/`; §6 of the spec treats the five tokens as given literal
strings the core must match exactly. -/
structure Tokens where
  readStart : String
  readEnd : String
  writeStart : String
  writeStartClose : String
  writeEnd : String
deriving DecidableEq, Repr

/-- The feature-flag object carried by the global config and by inline
write-start payloads. -/
structure FeatureConfig where
  enable_source_link : Bool
deriving DecidableEq, Repr

/-- The JS runtime failures the scans can raise: indexing a `null` regexp
match result, `JSON.parse` throwing on a malformed payload (the spec's
`MalformedConfig`), pushing onto an `undefined` array slot, and a model-only
marker for exhausting the fuel of the possibly-divergent live splice scan. -/
inductive JsErr where
  | nullMatch (line : String)
  | malformedConfig (line : String)
  | undefinedIndex (line : String)
  | outOfFuel
deriving DecidableEq, Repr

/-- Decidable equality on `Except`, so witnesses and counterexamples can be
checked by evaluation. -/
instance {ε α : Type} [DecidableEq ε] [DecidableEq α] : DecidableEq (Except ε α) := fun a b =>
  match a, b with
  | .ok x, .ok y => if h : x = y then .isTrue (by rw [h]) else .isFalse (by simp [h])
  | .error x, .error y => if h : x = y then .isTrue (by rw [h]) else .isFalse (by simp [h])
  | .ok _, .error _ => .isFalse (by simp)
  | .error _, .ok _ => .isFalse (by simp)

/-- Tail of `readMatchRegexp` after the literal marker: `\s+(\S+)`.  The
whitespace run must be nonempty, and the capture is the maximal nonempty
run of non-whitespace characters that follows. -/
def readTail (rest : List Char) : Option (List Char) :=
  if (rest.takeWhile isWs).isEmpty
      || ((rest.dropWhile isWs).takeWhile (fun c => !isWs c)).isEmpty
  then none
  else some ((rest.dropWhile isWs).takeWhile (fun c => !isWs c))

/-- Leftmost match of `readMatchRegexp` (`<readStart>\s+(\S+)` with the marker
escaped): try each start position left to right; where the literal marker
matches, the tail must also match, else the search continues. -/
def readMatch (tk : List Char) : List Char → Option (List Char)
  | [] => (takeAway tk []).bind readTail
  | l@(_ :: rest) =>
    match takeAway tk l with
    | some r =>
      match readTail r with
      | some id => some id
      | none => readMatch tk rest
    | none => readMatch tk rest

/-- `extractReadID` from `Sync.js`: `line.match(readMatchRegexp)[1]`; a `null`
match (indexing which would throw in JS) is `none`. -/
def extractReadID (tks : Tokens) (line : String) : Option String :=
  (readMatch tks.readStart.toList line.toList).map String.mk

/-- `\s*<close>` anywhere-terminated: drop zero or more whitespace characters
and then require the literal close token (the pattern has no `$` anchor, so
trailing characters after the close token are fine). -/
def wsThenClose (c : List Char) : List Char → Bool
  | [] => isLeading c []
  | l@(x :: rest) => isLeading c l || (isWs x && wsThenClose c rest)

/-- Longest (possibly empty) leading segment `s` of `r` such that
`\s*<close>` matches what remains of `r` after `s`; greedy `.+` backtracking
prefers the longest such segment. -/
def capAux (c : List Char) : List Char → Option (List Char)
  | [] => if wsThenClose c [] then some [] else none
  | x :: r =>
    match capAux c r with
    | some s => some (x :: s)
    | none => if wsThenClose c (x :: r) then some [] else none

/-- Greedy `(.+)\s*<close>`: a nonempty capture, longest first. -/
def capMatch (c : List Char) : List Char → Option (List Char)
  | [] => none
  | x :: r => (capAux c r).map (fun s => x :: s)

/-- Greedy `\s+(.+)\s*<close>`: try the longest whitespace run first and
backtrack to shorter (nonempty) runs, matching JS regexp preference. -/
def groupMatch (c : List Char) (r : List Char) : Option (List Char) :=
  let k := (r.takeWhile isWs).length
  (List.range k).reverse.findSome? fun j => capMatch c (r.drop (j + 1))

/-- The optional payload group and close of `writeMatchRegexp`:
`(?:\s+(.+))?\s*<close>`.  `some (some cfg)` when the group participates,
`some none` when it is skipped, `none` when the close token cannot be
reached. -/
def tailMatch (c : List Char) (rest : List Char) : Option (Option (List Char)) :=
  match groupMatch c rest with
  | some cfg => some (some cfg)
  | none => if wsThenClose c rest then some none else none

/-- `writeMatchRegexp` at one start position, after the literal write-start
token: `\s+(\S+)` with greedy backtracking over the identifier capture,
followed by `tailMatch`.  Returns the identifier and the optional payload
capture. -/
def writeAt (c : List Char) (r : List Char) : Option (List Char × Option (List Char)) :=
  let ws := r.takeWhile isWs
  let r₁ := r.dropWhile isWs
  let tok := r₁.takeWhile (fun x => !isWs x)
  let after := r₁.dropWhile (fun x => !isWs x)
  if ws.isEmpty || tok.isEmpty then none
  else
    (List.range tok.length).reverse.findSome? fun j =>
      (tailMatch c (tok.drop (j + 1) ++ after)).map fun cfg => (tok.take (j + 1), cfg)

/-- Leftmost match of the full `writeMatchRegexp`
(`<writeStart>\s+(\S+)(?:\s+(.+))?\s*<writeStartClose>`). -/
def writeMatch (w c : List Char) : List Char → Option (List Char × Option (List Char))
  | [] => (takeAway w []).bind (writeAt c)
  | l@(_ :: rest) =>
    match takeAway w l with
    | some r =>
      match writeAt c r with
      | some res => some res
      | none => writeMatch w c rest
    | none => writeMatch w c rest

/-- `extractWriteIDAndConfig` from `Sync.js`.  A `null` regexp match makes
`matches[1]` throw (`nullMatch`); a truthy payload capture is fed to
`JSON.parse`, whose throw on invalid serialization is `malformedConfig`.
`parse` abstracts the external `JSON.parse` builtin. -/
def extractWriteIDAndConfig (tks : Tokens) (parse : String → Option FeatureConfig)
    (line : String) : Except JsErr (String × Option FeatureConfig) :=
  match writeMatch tks.writeStart.toList tks.writeStartClose.toList line.toList with
  | none => .error (.nullMatch line)
  | some (i, none) => .ok (String.mk i, none)
  | some (i, some cfgStr) =>
    match parse (String.mk cfgStr) with
    | none => .error (.malformedConfig line)
    | some cfg => .ok (String.mk i, some cfg)

/-- The per-repository data the extractor bakes into every new snippet:
`owner`, `repo`, `ref` and the `{ directory, name }` item of the scanned
file. -/
structure SnipMeta where
  owner : String
  repo : String
  ref : Option String
  item : PathInfo
deriving DecidableEq, Repr

/-- `new Snippet(id, determineExtension(item.name), owner, repo, ref, item)`
with an empty capture buffer. -/
def newSnippet (m : SnipMeta) (id : String) : Snippet :=
  { id := id, ext := determineExtension m.item.name, owner := m.owner,
    repo := m.repo, ref := m.ref, filePath := m.item, lines := [] }

/-- The mutable locals of the `eachLine` callback in `extractSnippets`:
`capture`, `fileSnipsCount` and the `fileSnips` array. -/
structure ExtractState where
  capture : Bool
  count : Nat
  snips : List Snippet
deriving DecidableEq, Repr

/-- `fileSnips[k].lines.push(line)` when slot `k` exists (the caller checks
the bound; an out-of-range slot is JS `undefined` and pushing on it throws). -/
def pushLineAt (snips : List Snippet) (k : Nat) (line : String) : List Snippet :=
  match snips[k]? with
  | some s => snips.set k { s with lines := s.lines ++ [line] }
  | none => snips

/-- One line of the `extractSnippets` scan, in source order: the read-end
check (which resets `capture` and increments `fileSnipsCount`), then the
capture push (a crash if the indexed slot does not exist), then the
read-start check (which parses the id — a crash if the match is `null` — and
pushes a fresh snippet). -/
def extractStep (tks : Tokens) (m : SnipMeta) (st : ExtractState) (line : String) :
    Except JsErr ExtractState :=
  let st₁ :=
    if jsIncludes line tks.readEnd then
      { st with capture := false, count := st.count + 1 }
    else st
  match (if st₁.capture then
           (if st₁.count < st₁.snips.length then
              .ok { st₁ with snips := pushLineAt st₁.snips st₁.count line }
            else .error (.undefinedIndex line) : Except JsErr ExtractState)
         else .ok st₁) with
  | .error e => .error e
  | .ok st₂ =>
    if jsIncludes line tks.readStart then
      match extractReadID tks line with
      | none => .error (.nullMatch line)
      | some id => .ok { st₂ with capture := true, snips := st₂.snips ++ [newSnippet m id] }
    else .ok st₂

/-- The whole per-file extraction scan of `extractSnippets`: fold
`extractStep` over the file's lines starting from `capture = false`,
`fileSnipsCount = 0`, `fileSnips = []`, and return the collected snippets. -/
def extractFileSnips (tks : Tokens) (m : SnipMeta) (fileLines : List String) :
    Except JsErr (List Snippet) :=
  (fileLines.foldlM (extractStep tks m) ⟨false, 0, []⟩).map (·.snips)

/-- The body of `getClearedFile`: one pass with an `omit` flag.  A write-end
line clears `omit` before the keep test (so the end marker is kept); a
write-start line sets `omit` after the keep test (so the start marker is
kept and the interior after it is dropped). -/
def clearGo (wStart wEnd : String) : Bool → List String → List String
  | _, [] => []
  | om, l :: rest =>
    let om₁ := if jsIncludes l wEnd then false else om
    let om₂ := if jsIncludes l wStart then true else om₁
    if om₁ then clearGo wStart wEnd om₂ rest else l :: clearGo wStart wEnd om₂ rest

/-- `getClearedFile` from `Sync.js` on a file's line array. -/
def getClearedFile (tks : Tokens) (lines : List String) : List String :=
  clearGo tks.writeStart tks.writeEnd false lines

/-- `clearSnippets` on a single file is `getClearedFile`; on a list of files
it maps `getClearedFile` over them. -/
def clearSnippets (tks : Tokens) (files : List (List String)) : List (List String) :=
  files.map (getClearedFile tks)

/-- JS `arr.splice(start, deleteCount, ...items)` on a list: `start` is
clamped to the array length and a negative `deleteCount` acts as `0` (both
exactly as `Array.prototype.splice` behaves, and as Nat `take`/`drop` and
truncated subtraction behave here). -/
def jsSplice (xs : List String) (start delCnt : Nat) (items : List String) : List String :=
  xs.take start ++ items ++ xs.drop (start + delCnt)

/-- The live scan of `getSplicedFile`.  `arr` is the current (mutated-in-
place) line array, `c` the array iterator's cursor (`fileLineNumber` is
`c + 1`), `look` the `lookForStop` flag, `st` the recorded `spliceStart`,
`cfg` the `config` local.  On a write-start line the id/config are parsed
(propagating the JS crashes); on a matching id the start and config are
recorded.  On a write-end line with `lookForStop` set, `spliceFile` replaces
`end - start - 1` lines at index `spliceStart` of the same array with the
snippet's rendering under `config || this.config.features`, and the cursor
keeps counting against the mutated array — exactly the JS iterator.  `fuel`
bounds the number of iterations (the JS loop can diverge when rendered lines
re-trigger markers); running out is the model-only `outOfFuel`. -/
def spliceLoop (tks : Tokens) (parse : String → Option FeatureConfig) (snip : Snippet)
    (gcfg : FeatureConfig) :
    Nat → List String → Nat → Bool → Nat → Option FeatureConfig → Except JsErr (List String)
  | 0, arr, c, _, _, _ =>
    match arr.drop c with
    | [] => .ok arr
    | _ :: _ => .error .outOfFuel
  | fuel + 1, arr, c, look, st, cfg =>
    match arr.drop c with
    | [] => .ok arr
    | line :: _ =>
      if jsIncludes line tks.writeStart then
        match extractWriteIDAndConfig tks parse line with
        | .error e => .error e
        | .ok (i, cO) =>
          if i = snip.id then
            (if jsIncludes line tks.writeEnd then
               spliceLoop tks parse snip gcfg fuel
                 (jsSplice arr (c + 1) ((c + 1) - (c + 1) - 1)
                   (snip.fmt (cO.getD gcfg).enable_source_link))
                 (c + 1) false (c + 1) cO
             else spliceLoop tks parse snip gcfg fuel arr (c + 1) true (c + 1) cO)
          else
            (if jsIncludes line tks.writeEnd && look then
               spliceLoop tks parse snip gcfg fuel
                 (jsSplice arr st ((c + 1) - st - 1)
                   (snip.fmt (cfg.getD gcfg).enable_source_link))
                 (c + 1) false st cfg
             else spliceLoop tks parse snip gcfg fuel arr (c + 1) look st cfg)
      else
        (if jsIncludes line tks.writeEnd && look then
           spliceLoop tks parse snip gcfg fuel
             (jsSplice arr st ((c + 1) - st - 1)
               (snip.fmt (cfg.getD gcfg).enable_source_link))
             (c + 1) false st cfg
         else spliceLoop tks parse snip gcfg fuel arr (c + 1) look st cfg)

/-- `getSplicedFile` from `Sync.js` on a file's line array: the live scan
started at cursor `0` with `lookForStop = false`, `spliceStart = 0` and
`config` undefined. -/
def getSplicedFile (tks : Tokens) (parse : String → Option FeatureConfig)
    (snip : Snippet) (gcfg : FeatureConfig) (fuel : Nat) (lines : List String) :
    Except JsErr (List String) :=
  spliceLoop tks parse snip gcfg fuel lines 0 false 0 none

/-- `spliceSnippets` on a single file: every snippet's scan runs, in order,
against the file content left by the previous snippet's scan.  A JS throw
anywhere aborts the whole run. -/
def spliceSnippets (tks : Tokens) (parse : String → Option FeatureConfig)
    (gcfg : FeatureConfig) (fuel : Nat) (snips : List Snippet) (lines : List String) :
    Except JsErr (List String) :=
  snips.foldlM (fun acc s => getSplicedFile tks parse s gcfg fuel acc) lines

/-- Concrete marker token set used to evaluate the theorems on closed
inputs (the tokens are configuration constants; any distinct literals do). -/
def tks0 : Tokens :=
  { readStart := "@@R", readEnd := "@@E", writeStart := "<<W",
    writeStartClose := ">>", writeEnd := "<<E" }

/-- Concrete payload parser used for closed evaluations: it accepts no
payload, which is all the witnesses below need. -/
def parse0 : String → Option FeatureConfig := fun _ => none

/-- Concrete global feature flags for closed evaluations. -/
def gcfg0 : FeatureConfig := { enable_source_link := false }

/-- Concrete snippet with identifier `x` for closed evaluations. -/
def snipX : Snippet :=
  { id := "x", ext := "go", owner := "o", repo := "r", ref := none,
    filePath := { directory := "repo/sub", name := "main.go" }, lines := [] }

/-- A target-file line is benign for snippet id `sid` when, if it contains
the write-start token at all, `extractWriteIDAndConfig` succeeds on it and
yields an identifier different from `sid`.  Scanning such a line with
`lookForStop` unset neither errors, nor changes the scan state, nor touches
the array. -/
def benignFor (tks : Tokens) (parse : String → Option FeatureConfig)
    (sid : String) (l : String) : Bool :=
  if jsIncludes l tks.writeStart then
    match extractWriteIDAndConfig tks parse l with
    | .ok (i, _) => if i = sid then false else true
    | .error _ => false
  else true

theorem dropSuccOfCons {α : Type} {arr : List α} {c : Nat} {x : α} {r : List α}
    (h : arr.drop c = x :: r) : arr.drop (c + 1) = r := by
  have h1 : arr.drop (c + 1) = (arr.drop c).drop 1 := by
    rw [List.drop_drop, Nat.add_comm]
  rw [h1, h, List.drop_one]
  rfl

theorem dropLenApp {α : Type} (A : List α) (r : List α) (n : Nat) (h : n = A.length) :
    (A ++ r).drop n = r := by
  subst h
  induction A with
  | nil => rfl
  | cons a t ih => simp [ih]

theorem takeLenApp {α : Type} (A : List α) (r : List α) (n : Nat) (h : n = A.length) :
    (A ++ r).take n = A := by
  subst h
  induction A with
  | nil => rfl
  | cons a t ih => simp [ih]

theorem takeAway_app (l r : List Char) : takeAway l (l ++ r) = some r := by
  induction l with
  | nil => rfl
  | cons a t ih => simp [takeAway, ih]

theorem takeWhile_app_all {p : Char → Bool} {l : List Char} (r : List Char)
    (h : ∀ a ∈ l, p a = true) : (l ++ r).takeWhile p = l ++ r.takeWhile p := by
  induction l with
  | nil => rfl
  | cons a t ih =>
    have ha : p a = true := h a (List.mem_cons_self a t)
    simp only [List.cons_append, List.takeWhile_cons, ha, if_true]
    rw [ih (fun x hx => h x (List.mem_cons_of_mem a hx))]

theorem dropWhile_app_all {p : Char → Bool} {l : List Char} (r : List Char)
    (h : ∀ a ∈ l, p a = true) : (l ++ r).dropWhile p = r.dropWhile p := by
  induction l with
  | nil => rfl
  | cons a t ih =>
    have ha : p a = true := h a (List.mem_cons_self a t)
    simp only [List.cons_append, List.dropWhile_cons, ha, if_true]
    exact ih (fun x hx => h x (List.mem_cons_of_mem a hx))

theorem spliceStep_false (tks : Tokens) (parse : String → Option FeatureConfig)
    (snip : Snippet) (gcfg : FeatureConfig) (f c st : Nat) (cfg : Option FeatureConfig)
    (arr : List String) (line : String) (r : List String)
    (hdrop : arr.drop c = line :: r)
    (hb : benignFor tks parse snip.id line = true) :
    spliceLoop tks parse snip gcfg (f + 1) arr c false st cfg
      = spliceLoop tks parse snip gcfg f arr (c + 1) false st cfg := by
  unfold benignFor at hb
  simp only [spliceLoop, hdrop]
  by_cases hw : jsIncludes line tks.writeStart
  · rw [if_pos hw] at hb
    cases hex : extractWriteIDAndConfig tks parse line with
    | error e => rw [hex] at hb; exact absurd hb (by simp)
    | ok p =>
      obtain ⟨i, cO⟩ := p
      rw [hex] at hb
      have hb₂ : (if i = snip.id then false else true) = true := hb
      have hi : ¬ i = snip.id := by
        intro h
        rw [if_pos h] at hb₂
        exact Bool.false_ne_true hb₂
      simp [hw, hex, hi]
  · simp [hw]

theorem spliceStep_true (tks : Tokens) (parse : String → Option FeatureConfig)
    (snip : Snippet) (gcfg : FeatureConfig) (f c st : Nat) (cfg : Option FeatureConfig)
    (arr : List String) (line : String) (r : List String)
    (hdrop : arr.drop c = line :: r)
    (hw : jsIncludes line tks.writeStart = false)
    (he : jsIncludes line tks.writeEnd = false) :
    spliceLoop tks parse snip gcfg (f + 1) arr c true st cfg
      = spliceLoop tks parse snip gcfg f arr (c + 1) true st cfg := by
  simp [spliceLoop, hdrop, hw, he]

theorem spliceTail_ok (tks : Tokens) (parse : String → Option FeatureConfig)
    (snip : Snippet) (gcfg : FeatureConfig) (f : Nat) :
    ∀ (c st : Nat) (cfg : Option FeatureConfig) (arr : List String),
    (∀ l ∈ arr.drop c, benignFor tks parse snip.id l = true) →
    arr.length ≤ c + f →
    spliceLoop tks parse snip gcfg f arr c false st cfg = .ok arr := by
  induction f with
  | zero =>
    intro c st cfg arr hb hlen
    have hd : arr.drop c = [] := List.drop_of_length_le (by omega)
    simp [spliceLoop, hd]
  | succ f ih =>
    intro c st cfg arr hb hlen
    cases hdrop : arr.drop c with
    | nil => simp [spliceLoop, hdrop]
    | cons line r =>
      have hline : benignFor tks parse snip.id line = true := by
        apply hb
        rw [hdrop]
        exact List.mem_cons_self line r
      rw [spliceStep_false tks parse snip gcfg f c st cfg arr line r hdrop hline]
      apply ih (c + 1) st cfg arr
      · intro l hl
        apply hb
        rw [hdrop]
        rw [dropSuccOfCons hdrop] at hl
        exact List.mem_cons_of_mem line hl
      · omega

theorem spliceScan_false (tks : Tokens) (parse : String → Option FeatureConfig)
    (snip : Snippet) (gcfg : FeatureConfig) (seg : List String) :
    ∀ (f c st : Nat) (cfg : Option FeatureConfig) (arr rest : List String),
    arr.drop c = seg ++ rest →
    (∀ l ∈ seg, benignFor tks parse snip.id l = true) →
    spliceLoop tks parse snip gcfg (seg.length + f) arr c false st cfg
      = spliceLoop tks parse snip gcfg f arr (c + seg.length) false st cfg := by
  induction seg with
  | nil => intro f c st cfg arr rest hdrop hb; simp
  | cons x t ih =>
    intro f c st cfg arr rest hdrop hb
    have hx : benignFor tks parse snip.id x = true := hb x (List.mem_cons_self x t)
    have h1 : arr.drop c = x :: (t ++ rest) := by simpa using hdrop
    have hlen : (x :: t).length + f = (t.length + f) + 1 := by
      simp [List.length_cons]; omega
    rw [hlen, spliceStep_false tks parse snip gcfg (t.length + f) c st cfg arr x (t ++ rest) h1 hx]
    rw [ih f (c + 1) st cfg arr rest (dropSuccOfCons h1)
      (fun l hl => hb l (List.mem_cons_of_mem x hl))]
    have : c + 1 + t.length = c + (x :: t).length := by simp [List.length_cons]; omega
    rw [this]

theorem spliceScan_true (tks : Tokens) (parse : String → Option FeatureConfig)
    (snip : Snippet) (gcfg : FeatureConfig) (seg : List String) :
    ∀ (f c st : Nat) (cfg : Option FeatureConfig) (arr rest : List String),
    arr.drop c = seg ++ rest →
    (∀ l ∈ seg, jsIncludes l tks.writeStart = false ∧ jsIncludes l tks.writeEnd = false) →
    spliceLoop tks parse snip gcfg (seg.length + f) arr c true st cfg
      = spliceLoop tks parse snip gcfg f arr (c + seg.length) true st cfg := by
  induction seg with
  | nil => intro f c st cfg arr rest hdrop hb; simp
  | cons x t ih =>
    intro f c st cfg arr rest hdrop hb
    obtain ⟨hw, he⟩ := hb x (List.mem_cons_self x t)
    have h1 : arr.drop c = x :: (t ++ rest) := by simpa using hdrop
    have hlen : (x :: t).length + f = (t.length + f) + 1 := by
      simp [List.length_cons]; omega
    rw [hlen, spliceStep_true tks parse snip gcfg (t.length + f) c st cfg arr x (t ++ rest) h1 hw he]
    rw [ih f (c + 1) st cfg arr rest (dropSuccOfCons h1)
      (fun l hl => hb l (List.mem_cons_of_mem x hl))]
    have : c + 1 + t.length = c + (x :: t).length := by simp [List.length_cons]; omega
    rw [this]

theorem dropLenAppPlus {α : Type} (A : List α) (r : List α) (k : Nat) :
    (A ++ r).drop (A.length + k) = r.drop k := by
  induction A with
  | nil => simp
  | cons a t ih => simp [Nat.succ_add, ih]

theorem benign_of_noWriteStart (tks : Tokens) (parse : String → Option FeatureConfig)
    (sid : String) (l : String) (h : jsIncludes l tks.writeStart = false) :
    benignFor tks parse sid l = true := by
  unfold benignFor
  rw [h]
  simp

/-- The heart of the splice claims: one write block with a matching
identifier, surrounded by benign lines, gets exactly its interior replaced
with the snippet's rendering under the block's effective configuration; the
marker lines and everything outside the block survive unchanged. -/
theorem spliceSingle (tks : Tokens) (parse : String → Option FeatureConfig)
    (snip : Snippet) (gcfg : FeatureConfig) (P I Q : List String) (ws we : String)
    (cfgO : Option FeatureConfig) (f st₀ : Nat) (cfg₀ : Option FeatureConfig)
    (hP : ∀ l ∈ P, benignFor tks parse snip.id l = true)
    (hQ : ∀ l ∈ Q, benignFor tks parse snip.id l = true)
    (hI : ∀ l ∈ I, jsIncludes l tks.writeStart = false ∧ jsIncludes l tks.writeEnd = false)
    (hws₁ : jsIncludes ws tks.writeStart = true)
    (hws₂ : extractWriteIDAndConfig tks parse ws = .ok (snip.id, cfgO))
    (hws₃ : jsIncludes ws tks.writeEnd = false)
    (hwe₁ : jsIncludes we tks.writeEnd = true)
    (hwe₂ : jsIncludes we tks.writeStart = false)
    (hF : ∀ l ∈ snip.fmt (cfgO.getD gcfg).enable_source_link,
        jsIncludes l tks.writeStart = false ∧ jsIncludes l tks.writeEnd = false)
    (hf : (snip.fmt (cfgO.getD gcfg).enable_source_link).length + Q.length ≤ I.length + f) :
    spliceLoop tks parse snip gcfg (P.length + (1 + (I.length + (1 + f))))
        (P ++ ws :: (I ++ we :: Q)) 0 false st₀ cfg₀
      = .ok (P ++ ws :: (snip.fmt (cfgO.getD gcfg).enable_source_link ++ we :: Q)) := by
  set F := snip.fmt (cfgO.getD gcfg).enable_source_link with hFdef
  set arr := P ++ ws :: (I ++ we :: Q) with harr
  -- phase 1: scan the benign lines before the block
  rw [spliceScan_false tks parse snip gcfg P (1 + (I.length + (1 + f))) 0 st₀ cfg₀ arr
    (ws :: (I ++ we :: Q)) (by simp [harr]) hP]
  rw [Nat.zero_add]
  -- phase 2: the matching write-start marker line
  have hdws : arr.drop P.length = ws :: (I ++ we :: Q) := dropLenApp P _ _ rfl
  rw [show 1 + (I.length + (1 + f)) = (I.length + (1 + f)) + 1 from by omega]
  simp only [spliceLoop, hdws, hws₁, if_true, hws₂, hws₃]
  rw [if_neg Bool.false_ne_true]
  -- phase 3: scan the interior with lookForStop set
  have harr₂ : arr = (P ++ [ws]) ++ (I ++ we :: Q) := by simp [harr]
  have hdI : arr.drop (P.length + 1) = I ++ we :: Q := by
    rw [harr₂]
    exact dropLenApp (P ++ [ws]) _ _ (by simp)
  rw [spliceScan_true tks parse snip gcfg I (1 + f) (P.length + 1) (P.length + 1) cfgO arr
    (we :: Q) hdI hI]
  -- phase 4: the write-end marker line performs the splice
  have harr₃ : arr = (P ++ ws :: I) ++ (we :: Q) := by simp [harr]
  have hdwe : arr.drop (P.length + 1 + I.length) = we :: Q := by
    rw [harr₃]
    exact dropLenApp (P ++ ws :: I) _ _ (by simp; omega)
  rw [show 1 + f = f + 1 from by omega]
  simp only [spliceLoop, hdwe, hwe₂, hwe₁, if_false, Bool.true_and, if_true]
  have hdel : P.length + 1 + I.length + 1 - (P.length + 1) - 1 = I.length := by omega
  have hsplice : jsSplice arr (P.length + 1) (P.length + 1 + I.length + 1 - (P.length + 1) - 1) F
      = P ++ ws :: (F ++ we :: Q) := by
    rw [hdel]
    unfold jsSplice
    rw [harr₂, takeLenApp (P ++ [ws]) _ _ (by simp), ← harr₂, hdwe]
    simp
  rw [hsplice]
  -- phase 5: everything after the splice is benign, so the array is final
  apply spliceTail_ok
  · intro l hl
    have h₁ : (P ++ ws :: (F ++ we :: Q)) = (P ++ [ws]) ++ (F ++ we :: Q) := by simp
    have hlen₂ : P.length + 1 + I.length + 1 = (P ++ [ws]).length + (I.length + 1) := by
      simp only [List.length_append, List.length_cons, List.length_nil]
      omega
    rw [h₁, hlen₂, dropLenAppPlus] at hl
    have hl₂ : l ∈ F ++ we :: Q := List.drop_subset _ _ hl
    rcases List.mem_append.mp hl₂ with hl₃ | hl₃
    · exact benign_of_noWriteStart tks parse snip.id l (hF l hl₃).1
    · rcases List.mem_cons.mp hl₃ with hl₄ | hl₄
      · rw [hl₄]
        exact benign_of_noWriteStart tks parse snip.id we hwe₂
      · exact hQ l hl₄
  · simp only [List.length_append, List.length_cons]
    omega

theorem exceptBindOk {ε α β : Type} (a : α) (g : α → Except ε β) :
    (Except.ok a >>= g) = g a := rfl

theorem exceptBindErr {ε α β : Type} (e : ε) (g : α → Except ε β) :
    ((Except.error e : Except ε α) >>= g) = .error e := rfl

theorem spliceSnippets_nil (tks : Tokens) (parse : String → Option FeatureConfig)
    (gcfg : FeatureConfig) (fuel : Nat) (lines : List String) :
    spliceSnippets tks parse gcfg fuel [] lines = .ok lines := rfl

theorem spliceSnippets_cons (tks : Tokens) (parse : String → Option FeatureConfig)
    (gcfg : FeatureConfig) (fuel : Nat) (s : Snippet) (rest : List Snippet)
    (lines : List String) :
    spliceSnippets tks parse gcfg fuel (s :: rest) lines
      = getSplicedFile tks parse s gcfg fuel lines >>=
          fun m => spliceSnippets tks parse gcfg fuel rest m := rfl

/-- Flexible-fuel form of `spliceSingle` for `getSplicedFile`: any fuel at
least the file length plus the rendering length suffices. -/
theorem spliceOne (tks : Tokens) (parse : String → Option FeatureConfig)
    (snip : Snippet) (gcfg : FeatureConfig) (P I Q : List String) (ws we : String)
    (cfgO : Option FeatureConfig) (fuel : Nat)
    (hP : ∀ l ∈ P, benignFor tks parse snip.id l = true)
    (hQ : ∀ l ∈ Q, benignFor tks parse snip.id l = true)
    (hI : ∀ l ∈ I, jsIncludes l tks.writeStart = false ∧ jsIncludes l tks.writeEnd = false)
    (hws₁ : jsIncludes ws tks.writeStart = true)
    (hws₂ : extractWriteIDAndConfig tks parse ws = .ok (snip.id, cfgO))
    (hws₃ : jsIncludes ws tks.writeEnd = false)
    (hwe₁ : jsIncludes we tks.writeEnd = true)
    (hwe₂ : jsIncludes we tks.writeStart = false)
    (hF : ∀ l ∈ snip.fmt (cfgO.getD gcfg).enable_source_link,
        jsIncludes l tks.writeStart = false ∧ jsIncludes l tks.writeEnd = false)
    (hfuel : P.length + I.length + Q.length
        + (snip.fmt (cfgO.getD gcfg).enable_source_link).length + 2 ≤ fuel) :
    getSplicedFile tks parse snip gcfg fuel (P ++ ws :: (I ++ we :: Q))
      = .ok (P ++ ws :: (snip.fmt (cfgO.getD gcfg).enable_source_link ++ we :: Q)) := by
  have hfeq : fuel = P.length + (1 + (I.length + (1 + (fuel - P.length - I.length - 2)))) := by
    omega
  have hfge : (snip.fmt (cfgO.getD gcfg).enable_source_link).length + Q.length
      ≤ I.length + (fuel - P.length - I.length - 2) := by omega
  unfold getSplicedFile
  rw [hfeq]
  exact spliceSingle tks parse snip gcfg P I Q ws we cfgO _ 0 none
    hP hQ hI hws₁ hws₂ hws₃ hwe₁ hwe₂ hF hfge

/-- C1.  For a target file `P ++ [ws] ++ I ++ [we] ++ Q` whose only
write block matching the snippet's identifier is the one bounded by the
marker lines `ws` (1-based line `|P| + 1`) and `we` (1-based line
`|P| + |I| + 2`), splicing replaces exactly the interior `I` — the lines
strictly between the two markers — with the snippet's rendering under the
block's effective configuration.  The two marker lines and every line of `P`
and `Q` (which may freely contain other, unrelated write blocks: their
write-start lines just have to parse to a different identifier) are
unchanged. -/
theorem c1_interior_only_replacement (tks : Tokens)
    (parse : String → Option FeatureConfig) (snip : Snippet) (gcfg : FeatureConfig)
    (P I Q : List String) (ws we : String) (cfgO : Option FeatureConfig) (fuel : Nat)
    (hP : ∀ l ∈ P, benignFor tks parse snip.id l = true)
    (hQ : ∀ l ∈ Q, benignFor tks parse snip.id l = true)
    (hI : ∀ l ∈ I, jsIncludes l tks.writeStart = false ∧ jsIncludes l tks.writeEnd = false)
    (hws₁ : jsIncludes ws tks.writeStart = true)
    (hws₂ : extractWriteIDAndConfig tks parse ws = .ok (snip.id, cfgO))
    (hws₃ : jsIncludes ws tks.writeEnd = false)
    (hwe₁ : jsIncludes we tks.writeEnd = true)
    (hwe₂ : jsIncludes we tks.writeStart = false)
    (hF : ∀ l ∈ snip.fmt (cfgO.getD gcfg).enable_source_link,
        jsIncludes l tks.writeStart = false ∧ jsIncludes l tks.writeEnd = false)
    (hfuel : P.length + I.length + Q.length
        + (snip.fmt (cfgO.getD gcfg).enable_source_link).length + 2 ≤ fuel) :
    getSplicedFile tks parse snip gcfg fuel (P ++ ws :: (I ++ we :: Q))
      = .ok (P ++ ws :: (snip.fmt (cfgO.getD gcfg).enable_source_link ++ we :: Q)) :=
  spliceOne tks parse snip gcfg P I Q ws we cfgO fuel
    hP hQ hI hws₁ hws₂ hws₃ hwe₁ hwe₂ hF hfuel

/-- Witness for C1 at a concrete file: the interior line `old` of the block
for id `x` is replaced by the rendering of `snipX`; the surrounding lines
and both markers survive. -/
theorem c1_interior_only_replacement_witness :
    getSplicedFile tks0 parse0 snipX gcfg0 20
        (["p"] ++ "<<W x >>" :: (["old"] ++ "<<E" :: ["q"]))
      = .ok (["p"] ++ "<<W x >>"
          :: (snipX.fmt ((none : Option FeatureConfig).getD gcfg0).enable_source_link
              ++ "<<E" :: ["q"])) :=
  c1_interior_only_replacement tks0 parse0 snipX gcfg0 ["p"] ["old"] ["q"]
    "<<W x >>" "<<E" none 20 (by decide) (by decide) (by decide) (by decide)
    (by decide) (by decide) (by decide) (by decide) (by decide) (by decide)

/-- C2, evaluated at the failing input.  `snipX` renders to two lines while
the first matching block's interior has three, so the in-place `splice`
shortens the array under the live iterator and the scan skips the second
matching write-start: after one pass the second block still holds `d`.
The second pass (whose first splice is now length-preserving) does reach the
second block and splices it, so re-running splice with the same snippet set
on the already-spliced file changes it — splice is not idempotent. -/
theorem c2_splice_not_idempotent_eval :
    spliceSnippets tks0 parse0 gcfg0 30 [snipX]
        ["<<W x >>", "a", "b", "c", "<<E", "<<W x >>", "d", "<<E", "z"]
      = .ok ["<<W x >>", "```go", "```", "<<E", "<<W x >>", "d", "<<E", "z"]
    ∧ spliceSnippets tks0 parse0 gcfg0 30 [snipX]
        ["<<W x >>", "```go", "```", "<<E", "<<W x >>", "d", "<<E", "z"]
      = .ok ["<<W x >>", "```go", "```", "<<E", "<<W x >>", "```go", "```", "<<E", "z"]
    ∧ (["<<W x >>", "```go", "```", "<<E", "<<W x >>", "```go", "```", "<<E", "z"] : List String)
      ≠ ["<<W x >>", "```go", "```", "<<E", "<<W x >>", "d", "<<E", "z"] :=
  ⟨by decide, by decide, by decide⟩

/-- C3.  Two snippets share one identifier; `spliceSnippets` runs the first
snippet's scan and then the second snippet's scan against the already-mutated
file, so the single matching block ends up holding exactly the rendering of
the snippet processed last. -/
theorem c3_last_write_wins (tks : Tokens) (parse : String → Option FeatureConfig)
    (gcfg : FeatureConfig) (s₁ s₂ : Snippet) (P I Q : List String) (ws we : String)
    (cfgO : Option FeatureConfig) (fuel : Nat)
    (hid : s₂.id = s₁.id)
    (hP : ∀ l ∈ P, benignFor tks parse s₁.id l = true)
    (hQ : ∀ l ∈ Q, benignFor tks parse s₁.id l = true)
    (hI : ∀ l ∈ I, jsIncludes l tks.writeStart = false ∧ jsIncludes l tks.writeEnd = false)
    (hws₁ : jsIncludes ws tks.writeStart = true)
    (hws₂ : extractWriteIDAndConfig tks parse ws = .ok (s₁.id, cfgO))
    (hws₃ : jsIncludes ws tks.writeEnd = false)
    (hwe₁ : jsIncludes we tks.writeEnd = true)
    (hwe₂ : jsIncludes we tks.writeStart = false)
    (hF₁ : ∀ l ∈ s₁.fmt (cfgO.getD gcfg).enable_source_link,
        jsIncludes l tks.writeStart = false ∧ jsIncludes l tks.writeEnd = false)
    (hF₂ : ∀ l ∈ s₂.fmt (cfgO.getD gcfg).enable_source_link,
        jsIncludes l tks.writeStart = false ∧ jsIncludes l tks.writeEnd = false)
    (hfuel₁ : P.length + I.length + Q.length
        + (s₁.fmt (cfgO.getD gcfg).enable_source_link).length + 2 ≤ fuel)
    (hfuel₂ : P.length + (s₁.fmt (cfgO.getD gcfg).enable_source_link).length + Q.length
        + (s₂.fmt (cfgO.getD gcfg).enable_source_link).length + 2 ≤ fuel) :
    spliceSnippets tks parse gcfg fuel [s₁, s₂] (P ++ ws :: (I ++ we :: Q))
      = .ok (P ++ ws :: (s₂.fmt (cfgO.getD gcfg).enable_source_link ++ we :: Q)) := by
  rw [spliceSnippets_cons,
    spliceOne tks parse s₁ gcfg P I Q ws we cfgO fuel
      hP hQ hI hws₁ hws₂ hws₃ hwe₁ hwe₂ hF₁ hfuel₁,
    exceptBindOk, spliceSnippets_cons,
    spliceOne tks parse s₂ gcfg P (s₁.fmt (cfgO.getD gcfg).enable_source_link) Q ws we cfgO fuel
      (by rw [hid]; exact hP) (by rw [hid]; exact hQ) hF₁ hws₁ (by rw [hid]; exact hws₂)
      hws₃ hwe₁ hwe₂ hF₂ hfuel₂,
    exceptBindOk, spliceSnippets_nil]

/-- Witness for C3: two snippets with id `x` but different captured lines;
the block ends with the second snippet's rendering. -/
theorem c3_last_write_wins_witness :
    spliceSnippets tks0 parse0 gcfg0 20
        [snipX, { snipX with lines := ["y=2"] }]
        (["p"] ++ "<<W x >>" :: (["old"] ++ "<<E" :: ["q"]))
      = .ok (["p"] ++ "<<W x >>"
          :: (Snippet.fmt { snipX with lines := ["y=2"] }
                ((none : Option FeatureConfig).getD gcfg0).enable_source_link
              ++ "<<E" :: ["q"])) :=
  c3_last_write_wins tks0 parse0 gcfg0 snipX { snipX with lines := ["y=2"] }
    ["p"] ["old"] ["q"] "<<W x >>" "<<E" none 20 (by decide) (by decide) (by decide)
    (by decide) (by decide) (by decide) (by decide) (by decide) (by decide)
    (by decide) (by decide) (by decide) (by decide)

/-- C4.  When no snippet of the provided set matches any write block of the
file (every line that contains the write-start token parses to an identifier
that differs from every snippet's), the whole splice pass returns the file
unchanged: stale interiors persist and nothing fails. -/
theorem c4_unmatched_block_noop (tks : Tokens) (parse : String → Option FeatureConfig)
    (gcfg : FeatureConfig) (snips : List Snippet) (lines : List String) (fuel : Nat)
    (h : ∀ s ∈ snips, ∀ l ∈ lines, benignFor tks parse s.id l = true)
    (hfuel : lines.length ≤ fuel) :
    spliceSnippets tks parse gcfg fuel snips lines = .ok lines := by
  induction snips with
  | nil => rfl
  | cons s rest ih =>
    rw [spliceSnippets_cons]
    have h₁ : getSplicedFile tks parse s gcfg fuel lines = .ok lines := by
      unfold getSplicedFile
      apply spliceTail_ok
      · intro l hl
        exact h s (List.mem_cons_self s rest) l (by simpa using hl)
      · omega
    rw [h₁, exceptBindOk]
    exact ih (fun s' hs' => h s' (List.mem_cons_of_mem s hs'))

/-- Witness for C4: a block with identifier `b` and a snippet set containing
only id `x`; the file, stale interior included, is returned verbatim. -/
theorem c4_unmatched_block_noop_witness :
    spliceSnippets tks0 parse0 gcfg0 5 [snipX] ["<<W b >>", "stale", "<<E"]
      = .ok ["<<W b >>", "stale", "<<E"] :=
  c4_unmatched_block_noop tks0 parse0 gcfg0 [snipX] ["<<W b >>", "stale", "<<E"] 5
    (by decide) (by decide)

/-- C8.  A write-start marker line whose inline payload fails to parse as
structured data makes the whole splice run fail with the malformed-config
error carrying that line: the scan reaches the line (anything before it is
processed normally), `extractWriteIDAndConfig` raises, and the error
propagates through `getSplicedFile` and `spliceSnippets` — a hard stop for
the run, not a skip of the block. -/
theorem c8_malformed_config_hard_stop (tks : Tokens)
    (parse : String → Option FeatureConfig) (snip : Snippet) (others : List Snippet)
    (gcfg : FeatureConfig) (P rest : List String) (line : String) (f : Nat)
    (hP : ∀ l ∈ P, benignFor tks parse snip.id l = true)
    (hw : jsIncludes line tks.writeStart = true)
    (hex : extractWriteIDAndConfig tks parse line = .error (.malformedConfig line)) :
    spliceSnippets tks parse gcfg (P.length + (1 + f)) (snip :: others) (P ++ line :: rest)
      = .error (.malformedConfig line) := by
  rw [spliceSnippets_cons]
  have h₁ : getSplicedFile tks parse snip gcfg (P.length + (1 + f)) (P ++ line :: rest)
      = .error (.malformedConfig line) := by
    unfold getSplicedFile
    rw [spliceScan_false tks parse snip gcfg P (1 + f) 0 0 none _ (line :: rest)
      (by simp) hP, Nat.zero_add]
    have hd : (P ++ line :: rest).drop P.length = line :: rest := dropLenApp P _ _ rfl
    rw [show 1 + f = f + 1 from by omega]
    simp only [spliceLoop, hd, hw, if_true, hex]
  rw [h₁, exceptBindErr]

/-- Witness for C8: the payload `bad` of the write-start line is not valid
serialization for `parse0`, so the two-snippet run dies with the
malformed-config error naming the line — the well-formed block after it is
never spliced. -/
theorem c8_malformed_config_hard_stop_witness :
    spliceSnippets tks0 parse0 gcfg0 (1 + (1 + 6)) [snipX, snipX]
        (["p"] ++ "<<W x bad >>" :: ["old", "<<E"])
      = .error (.malformedConfig "<<W x bad >>") :=
  c8_malformed_config_hard_stop tks0 parse0 snipX [snipX] gcfg0 ["p"]
    ["old", "<<E"] "<<W x bad >>" 6 (by decide) (by decide) (by decide)

/-- C10, counterexample.  The claim says that any line containing the
write-start token parses successfully; but on a line that carries the token
with nothing after it, `writeMatchRegexp` does not match, `line.match`
returns `null`, and the unguarded `matches[1]` of
`extractWriteIDAndConfig` is a crash (`nullMatch`), not a successful parse. -/
theorem c10_write_parse_crash_counterexample :
    jsIncludes "<<W" tks0.writeStart = true
      ∧ extractWriteIDAndConfig tks0 parse0 "<<W" = .error (.nullMatch "<<W") :=
  ⟨by decide, by decide⟩

/-- C10, amended.  A line containing the write-start token parses iff the
full pattern (whitespace, identifier, optional payload, close token)
matches; when the match is `null`, the unguarded indexing makes the splice
scan fail on that line, so the scan does have a reachable failure there. -/
theorem c10_write_parse_unguarded (tks : Tokens)
    (parse : String → Option FeatureConfig) (snip : Snippet) (gcfg : FeatureConfig)
    (line : String) (rest : List String) (f : Nat)
    (hw : jsIncludes line tks.writeStart = true)
    (hnull : writeMatch tks.writeStart.toList tks.writeStartClose.toList line.toList = none) :
    getSplicedFile tks parse snip gcfg (f + 1) (line :: rest)
      = .error (.nullMatch line) := by
  have hex : extractWriteIDAndConfig tks parse line = .error (.nullMatch line) := by
    unfold extractWriteIDAndConfig
    rw [hnull]
  unfold getSplicedFile
  have hd : (line :: rest).drop 0 = line :: rest := rfl
  simp only [spliceLoop, hd, hw, if_true, hex]

/-- Witness for C10's amended statement at the concrete crashing line. -/
theorem c10_write_parse_unguarded_witness :
    getSplicedFile tks0 parse0 snipX gcfg0 (3 + 1) ["<<W", "q"]
      = .error (.nullMatch "<<W") :=
  c10_write_parse_unguarded tks0 parse0 snipX gcfg0 "<<W" ["q"] 3
    (by decide) (by decide)

/-- A well-formed write block of a target file: plain lines, the write-start
marker line, the interior, the write-end marker line. -/
structure WBlock where
  before : List String
  startLine : String
  interior : List String
  endLine : String
deriving DecidableEq, Repr

/-- The lines of one write block region. -/
def WBlock.asLines (b : WBlock) : List String :=
  b.before ++ b.startLine :: (b.interior ++ [b.endLine])

/-- The same block with an emptied interior. -/
def WBlock.cleared (b : WBlock) : WBlock := { b with interior := [] }

/-- A target file made of a sequence of write blocks followed by trailing
plain lines. -/
def wfile (bs : List WBlock) (trailing : List String) : List String :=
  (bs.map WBlock.asLines).flatten ++ trailing

theorem clearKeep (w e : String) (seg : List String) :
    ∀ rest : List String, (∀ l ∈ seg, jsIncludes l w = false) →
    clearGo w e false (seg ++ rest) = seg ++ clearGo w e false rest := by
  induction seg with
  | nil => intro rest h; rfl
  | cons x t ih =>
    intro rest h
    have hx : jsIncludes x w = false := h x (List.mem_cons_self x t)
    have ht := ih rest (fun l hl => h l (List.mem_cons_of_mem x hl))
    simp [clearGo, hx, ht]

theorem clearDrop (w e : String) (seg : List String) :
    ∀ rest : List String, (∀ l ∈ seg, jsIncludes l e = false) →
    clearGo w e true (seg ++ rest) = clearGo w e true rest := by
  induction seg with
  | nil => intro rest h; rfl
  | cons x t ih =>
    intro rest h
    have hx : jsIncludes x e = false := h x (List.mem_cons_self x t)
    have ht := ih rest (fun l hl => h l (List.mem_cons_of_mem x hl))
    simp [clearGo, hx, ht]

theorem clearBlock (w e : String) (b : WBlock) (rest : List String)
    (hb : ∀ l ∈ b.before, jsIncludes l w = false)
    (hs : jsIncludes b.startLine w = true)
    (hi : ∀ l ∈ b.interior, jsIncludes l e = false)
    (he₁ : jsIncludes b.endLine e = true)
    (he₂ : jsIncludes b.endLine w = false) :
    clearGo w e false (b.asLines ++ rest)
      = b.cleared.asLines ++ clearGo w e false rest := by
  unfold WBlock.asLines WBlock.cleared
  have h₁ : (b.before ++ b.startLine :: (b.interior ++ [b.endLine])) ++ rest
      = b.before ++ b.startLine :: (b.interior ++ b.endLine :: rest) := by simp
  rw [h₁, clearKeep w e b.before _ hb]
  have h₂ : clearGo w e false (b.startLine :: (b.interior ++ b.endLine :: rest))
      = b.startLine :: clearGo w e true (b.interior ++ b.endLine :: rest) := by
    simp [clearGo, hs, ite_self]
  rw [h₂, clearDrop w e b.interior _ hi]
  have h₃ : clearGo w e true (b.endLine :: rest)
      = b.endLine :: clearGo w e false rest := by
    simp [clearGo, he₁, he₂]
  rw [h₃]
  simp

theorem clearScript (w e : String) (bs : List WBlock) :
    ∀ tr : List String,
    (∀ b ∈ bs, (∀ l ∈ b.before, jsIncludes l w = false)
      ∧ jsIncludes b.startLine w = true
      ∧ (∀ l ∈ b.interior, jsIncludes l e = false)
      ∧ jsIncludes b.endLine e = true
      ∧ jsIncludes b.endLine w = false) →
    (∀ l ∈ tr, jsIncludes l w = false) →
    clearGo w e false ((bs.map WBlock.asLines).flatten ++ tr)
      = ((bs.map WBlock.cleared).map WBlock.asLines).flatten ++ tr := by
  induction bs with
  | nil =>
    intro tr _ htr
    simp only [List.map_nil, List.flatten_nil, List.nil_append]
    have h0 := clearKeep w e tr [] htr
    simpa [clearGo] using h0
  | cons b bs' ih =>
    intro tr hbs htr
    obtain ⟨h₁, h₂, h₃, h₄, h₅⟩ := hbs b (List.mem_cons_self b bs')
    have hrest : (List.map WBlock.asLines (b :: bs')).flatten ++ tr
        = b.asLines ++ ((List.map WBlock.asLines bs').flatten ++ tr) := by simp
    rw [hrest, clearBlock w e b _ h₁ h₂ h₃ h₄ h₅,
      ih tr (fun b' hb' => hbs b' (List.mem_cons_of_mem b hb')) htr]
    simp

theorem clearGo_idem (w e : String) : ∀ (l : List String) (om : Bool),
    clearGo w e om (clearGo w e om l) = clearGo w e om l := by
  intro l
  induction l with
  | nil => intro om; rfl
  | cons x t ih =>
    intro om
    cases om <;> by_cases he : jsIncludes x e = true <;>
      by_cases hw : jsIncludes x w = true <;>
      simp [clearGo, he, hw, ih]

/-- C5.  First conjunct: on any file made of write blocks and plain lines —
whatever the interiors hold, spliced or not — `clear` keeps every
write-start and write-end marker line and every line outside the blocks, and
drops every interior line.  Second conjunct: clearing is idempotent on every
line list whatsoever.  `getClearedFile` takes no snippet input and never
looks at identifiers, so both statements are identifier-free. -/
theorem c5_clear_empties_every_block :
    (∀ (tks : Tokens) (bs : List WBlock) (tr : List String),
      (∀ b ∈ bs, (∀ l ∈ b.before, jsIncludes l tks.writeStart = false)
        ∧ jsIncludes b.startLine tks.writeStart = true
        ∧ (∀ l ∈ b.interior, jsIncludes l tks.writeEnd = false)
        ∧ jsIncludes b.endLine tks.writeEnd = true
        ∧ jsIncludes b.endLine tks.writeStart = false) →
      (∀ l ∈ tr, jsIncludes l tks.writeStart = false) →
      getClearedFile tks (wfile bs tr) = wfile (bs.map WBlock.cleared) tr)
    ∧ (∀ (tks : Tokens) (lines : List String),
      getClearedFile tks (getClearedFile tks lines) = getClearedFile tks lines) := by
  constructor
  · intro tks bs tr hbs htr
    unfold getClearedFile wfile
    exact clearScript tks.writeStart tks.writeEnd bs tr hbs htr
  · intro tks lines
    unfold getClearedFile
    exact clearGo_idem tks.writeStart tks.writeEnd lines false

/-- Witness for C5 on a concrete file: a spliced-looking block is emptied to
its two marker lines, the plain lines survive, and identifiers never come
into it. -/
theorem c5_clear_empties_every_block_witness :
    getClearedFile tks0
        (wfile [{ before := ["p"], startLine := "<<W x >>",
                  interior := ["```go", "```"], endLine := "<<E" }] ["q"])
      = wfile [{ before := ["p"], startLine := "<<W x >>",
                 interior := [], endLine := "<<E" }] ["q"] :=
  c5_clear_empties_every_block.1 tks0
    [{ before := ["p"], startLine := "<<W x >>",
       interior := ["```go", "```"], endLine := "<<E" }] ["q"]
    (by decide) (by decide)

theorem appGetAt {α : Type} (S : List α) (x : α) (t : List α) :
    (S ++ x :: t)[S.length]? = some x := by
  induction S with
  | nil => simp
  | cons a s ih => simpa using ih

theorem appSetAt {α : Type} (S : List α) (x y : α) (t : List α) :
    (S ++ x :: t).set S.length y = S ++ y :: t := by
  induction S with
  | nil => rfl
  | cons a s ih => simp [ih]

theorem extractStep_skip (tks : Tokens) (m : SnipMeta) (st : ExtractState) (line : String)
    (hcap : st.capture = false)
    (hrs : jsIncludes line tks.readStart = false)
    (hre : jsIncludes line tks.readEnd = false) :
    extractStep tks m st line = .ok st := by
  simp [extractStep, hrs, hre, hcap]

theorem extractStep_start (tks : Tokens) (m : SnipMeta) (S : List Snippet) (k : Nat)
    (line : String) (id : String)
    (hre : jsIncludes line tks.readEnd = false)
    (hrs : jsIncludes line tks.readStart = true)
    (hid : extractReadID tks line = some id) :
    extractStep tks m ⟨false, k, S⟩ line = .ok ⟨true, k, S ++ [newSnippet m id]⟩ := by
  simp [extractStep, hre, hrs, hid]

theorem extractStep_push (tks : Tokens) (m : SnipMeta) (S₀ : List Snippet) (s : Snippet)
    (line : String)
    (hre : jsIncludes line tks.readEnd = false)
    (hrs : jsIncludes line tks.readStart = false) :
    extractStep tks m ⟨true, S₀.length, S₀ ++ [s]⟩ line
      = .ok ⟨true, S₀.length, S₀ ++ [{ s with lines := s.lines ++ [line] }]⟩ := by
  have hlt : S₀.length < (S₀ ++ [s]).length := by simp
  simp [extractStep, hre, hrs, hlt, pushLineAt, appGetAt, appSetAt]

theorem extractStep_end (tks : Tokens) (m : SnipMeta) (cap : Bool) (S : List Snippet)
    (k : Nat) (line : String)
    (hre : jsIncludes line tks.readEnd = true)
    (hrs : jsIncludes line tks.readStart = false) :
    extractStep tks m ⟨cap, k, S⟩ line = .ok ⟨false, k + 1, S⟩ := by
  simp [extractStep, hre, hrs]

theorem extractScan_skip (tks : Tokens) (m : SnipMeta) (seg : List String) :
    ∀ (st : ExtractState), st.capture = false →
    (∀ l ∈ seg, jsIncludes l tks.readStart = false ∧ jsIncludes l tks.readEnd = false) →
    List.foldlM (extractStep tks m) st seg = .ok st := by
  induction seg with
  | nil => intro st _ _; rfl
  | cons x t ih =>
    intro st hcap h
    obtain ⟨hrs, hre⟩ := h x (List.mem_cons_self x t)
    rw [List.foldlM_cons, extractStep_skip tks m st x hcap hrs hre, exceptBindOk]
    exact ih st hcap (fun l hl => h l (List.mem_cons_of_mem x hl))

theorem extractScan_body (tks : Tokens) (m : SnipMeta) (body : List String) :
    ∀ (S₀ : List Snippet) (s : Snippet),
    (∀ l ∈ body, jsIncludes l tks.readStart = false ∧ jsIncludes l tks.readEnd = false) →
    List.foldlM (extractStep tks m) ⟨true, S₀.length, S₀ ++ [s]⟩ body
      = .ok ⟨true, S₀.length, S₀ ++ [{ s with lines := s.lines ++ body }]⟩ := by
  induction body with
  | nil => intro S₀ s _; simp [List.foldlM_nil]; rfl
  | cons x t ih =>
    intro S₀ s h
    obtain ⟨hrs, hre⟩ := h x (List.mem_cons_self x t)
    rw [List.foldlM_cons, extractStep_push tks m S₀ s x hre hrs, exceptBindOk,
      ih S₀ { s with lines := s.lines ++ [x] } (fun l hl => h l (List.mem_cons_of_mem x hl))]
    simp

/-- A well-formed read block of a source file: plain lines, the read-start
marker line carrying identifier `id`, the captured body, the read-end marker
line. -/
structure RBlock where
  before : List String
  startLine : String
  id : String
  body : List String
  endLine : String
deriving DecidableEq, Repr

/-- The lines of one read block region. -/
def RBlock.asLines (b : RBlock) : List String :=
  b.before ++ b.startLine :: (b.body ++ [b.endLine])

/-- A source file made of read blocks followed by trailing plain lines. -/
def rfileLines (bs : List RBlock) (trailing : List String) : List String :=
  (bs.map RBlock.asLines).flatten ++ trailing

/-- The snippet a well-formed read block extracts to. -/
def RBlock.asSnippet (b : RBlock) (m : SnipMeta) : Snippet :=
  { newSnippet m b.id with lines := b.body }

/-- Side conditions making a read block well formed for token set `tks`:
no stray markers in the plain and body lines, the start line parses to the
block's id, the end line carries only the read-end marker. -/
def RBlock.wf (b : RBlock) (tks : Tokens) : Prop :=
  (∀ l ∈ b.before, jsIncludes l tks.readStart = false ∧ jsIncludes l tks.readEnd = false)
    ∧ jsIncludes b.startLine tks.readStart = true
    ∧ jsIncludes b.startLine tks.readEnd = false
    ∧ extractReadID tks b.startLine = some b.id
    ∧ (∀ l ∈ b.body, jsIncludes l tks.readStart = false ∧ jsIncludes l tks.readEnd = false)
    ∧ jsIncludes b.endLine tks.readEnd = true
    ∧ jsIncludes b.endLine tks.readStart = false

instance (b : RBlock) (tks : Tokens) : Decidable (b.wf tks) := by
  unfold RBlock.wf
  infer_instance

theorem extractBlock (tks : Tokens) (m : SnipMeta) (b : RBlock) (S₀ : List Snippet)
    (hwf : b.wf tks) :
    List.foldlM (extractStep tks m) ⟨false, S₀.length, S₀⟩ b.asLines
      = .ok ⟨false, S₀.length + 1, S₀ ++ [b.asSnippet m]⟩ := by
  obtain ⟨hb, hs₁, hs₂, hs₃, hbody, he₁, he₂⟩ := hwf
  unfold RBlock.asLines
  rw [List.foldlM_append, extractScan_skip tks m b.before ⟨false, S₀.length, S₀⟩ rfl hb,
    exceptBindOk, List.foldlM_cons,
    extractStep_start tks m S₀ S₀.length b.startLine b.id hs₂ hs₁ hs₃, exceptBindOk,
    List.foldlM_append, extractScan_body tks m b.body S₀ (newSnippet m b.id) hbody,
    exceptBindOk, List.foldlM_cons,
    extractStep_end tks m true _ _ b.endLine he₁ he₂, exceptBindOk]
  simp only [List.foldlM_nil, RBlock.asSnippet, newSnippet]
  rfl

theorem extractScript (tks : Tokens) (m : SnipMeta) (bs : List RBlock) :
    ∀ (S₀ : List Snippet) (tr : List String),
    (∀ b ∈ bs, b.wf tks) →
    (∀ l ∈ tr, jsIncludes l tks.readStart = false ∧ jsIncludes l tks.readEnd = false) →
    List.foldlM (extractStep tks m) ⟨false, S₀.length, S₀⟩
        ((bs.map RBlock.asLines).flatten ++ tr)
      = .ok ⟨false, S₀.length + bs.length, S₀ ++ bs.map (fun b => b.asSnippet m)⟩ := by
  induction bs with
  | nil =>
    intro S₀ tr _ htr
    have h0 := extractScan_skip tks m tr ⟨false, S₀.length, S₀⟩ rfl htr
    simpa using h0
  | cons b bs' ih =>
    intro S₀ tr hbs htr
    have hsplit : (List.map RBlock.asLines (b :: bs')).flatten ++ tr
        = b.asLines ++ ((List.map RBlock.asLines bs').flatten ++ tr) := by simp
    rw [hsplit, List.foldlM_append,
      extractBlock tks m b S₀ (hbs b (List.mem_cons_self b bs')), exceptBindOk]
    have hlen : (⟨false, S₀.length + 1, S₀ ++ [b.asSnippet m]⟩ : ExtractState)
        = ⟨false, (S₀ ++ [b.asSnippet m]).length, S₀ ++ [b.asSnippet m]⟩ := by simp
    rw [hlen, ih (S₀ ++ [b.asSnippet m]) tr
      (fun b' hb' => hbs b' (List.mem_cons_of_mem b hb')) htr]
    have hcount : (S₀ ++ [b.asSnippet m]).length + bs'.length
        = S₀.length + (b :: bs').length := by
      simp only [List.length_append, List.length_singleton, List.length_cons,
        List.length_nil]
      omega
    have hsnips : (S₀ ++ [b.asSnippet m]) ++ (bs'.map (fun b => b.asSnippet m))
        = S₀ ++ ((b :: bs').map (fun b => b.asSnippet m)) := by
      simp
    rw [hcount, hsnips]

theorem readMatch_structured (tk wsr idt tl : List Char)
    (htk : tk ≠ [])
    (hws : wsr ≠ []) (hwsAll : ∀ c ∈ wsr, isWs c = true)
    (hid : idt ≠ []) (hidAll : ∀ c ∈ idt, isWs c = false)
    (htl : tl = [] ∨ ∃ d tl₂, tl = d :: tl₂ ∧ isWs d = true) :
    readMatch tk (tk ++ (wsr ++ (idt ++ tl))) = some idt := by
  have h₂ : readTail (wsr ++ (idt ++ tl)) = some idt := by
    obtain ⟨i₀, idt₂, rfl⟩ : ∃ i₀ idt₂, idt = i₀ :: idt₂ := by
      cases idt with
      | nil => exact absurd rfl hid
      | cons a t => exact ⟨a, t, rfl⟩
    have hi₀ : isWs i₀ = false := hidAll i₀ (List.mem_cons_self i₀ idt₂)
    have ht : ((i₀ :: idt₂) ++ tl).takeWhile isWs = [] := by
      simp [List.takeWhile_cons, hi₀]
    have hd : ((i₀ :: idt₂) ++ tl).dropWhile isWs = (i₀ :: idt₂) ++ tl := by
      simp [List.dropWhile_cons, hi₀]
    have htok : (((i₀ :: idt₂) ++ tl).takeWhile fun c => !isWs c) = i₀ :: idt₂ := by
      rw [takeWhile_app_all tl (fun c hc => by simp [hidAll c hc])]
      rcases htl with h | ⟨d, tl₂, rfl, hdws⟩
      · simp [h]
      · simp [List.takeWhile_cons, hdws]
    have hTW : (wsr ++ ((i₀ :: idt₂) ++ tl)).takeWhile isWs = wsr ++ [] := by
      rw [takeWhile_app_all _ hwsAll, ht]
    have hDW : (wsr ++ ((i₀ :: idt₂) ++ tl)).dropWhile isWs = (i₀ :: idt₂) ++ tl := by
      rw [dropWhile_app_all _ hwsAll, hd]
    have hne₁ : (wsr ++ ([] : List Char)).isEmpty = false := by
      cases wsr with
      | nil => exact absurd rfl hws
      | cons a t => rfl
    unfold readTail
    rw [hTW, hDW, htok, hne₁]
    simp
  obtain ⟨a, tk₂, rfl⟩ : ∃ a tk₂, tk = a :: tk₂ := by
    cases tk with
    | nil => exact absurd rfl htk
    | cons a t => exact ⟨a, t, rfl⟩
  have h₁ : takeAway (a :: tk₂) ((a :: tk₂) ++ (wsr ++ (idt ++ tl)))
      = some (wsr ++ (idt ++ tl)) := takeAway_app (a :: tk₂) (wsr ++ (idt ++ tl))
  rw [show (a :: tk₂) ++ (wsr ++ (idt ++ tl)) = a :: (tk₂ ++ (wsr ++ (idt ++ tl)))
    from rfl] at h₁ ⊢
  simp only [readMatch, h₁, h₂]

/-- C6.  First conjunct: on a source file made of well-formed read blocks
and stray-marker-free plain lines, extraction yields exactly one snippet per
read-start/read-end pair, in file order, whose identifier is the one parsed
from the read-start line and whose lines are exactly the lines strictly
between the two marker lines (the marker lines themselves excluded).
Second conjunct: on a read-start line of the shape marker + whitespace +
token (+ whitespace tail), the parsed identifier is precisely that maximal
non-whitespace token following the marker. -/
theorem c6_one_snippet_per_read_pair :
    (∀ (tks : Tokens) (m : SnipMeta) (bs : List RBlock) (tr : List String),
      (∀ b ∈ bs, b.wf tks) →
      (∀ l ∈ tr, jsIncludes l tks.readStart = false ∧ jsIncludes l tks.readEnd = false) →
      extractFileSnips tks m (rfileLines bs tr) = .ok (bs.map (fun b => b.asSnippet m)))
    ∧ (∀ (tk wsr idt tl : List Char), tk ≠ [] → wsr ≠ [] →
        (∀ c ∈ wsr, isWs c = true) → idt ≠ [] → (∀ c ∈ idt, isWs c = false) →
        (tl = [] ∨ ∃ d tl₂, tl = d :: tl₂ ∧ isWs d = true) →
        readMatch tk (tk ++ (wsr ++ (idt ++ tl))) = some idt) := by
  constructor
  · intro tks m bs tr hbs htr
    unfold extractFileSnips rfileLines
    have h0 : (⟨false, 0, []⟩ : ExtractState) = ⟨false, ([] : List Snippet).length, []⟩ := rfl
    rw [h0, extractScript tks m bs [] tr hbs htr]
    simp [Except.map]
  · exact readMatch_structured

/-- Witness for C6 on a concrete file: one read pair, identifier `myid`,
body exactly the two lines between the markers. -/
theorem c6_one_snippet_per_read_pair_witness :
    extractFileSnips tks0 ⟨"o", "r", none, ⟨"repo/sub", "main.go"⟩⟩
        (rfileLines [{ before := ["p"], startLine := "@@R myid", id := "myid",
                       body := ["l1", "l2"], endLine := "@@E" }] ["q"])
      = .ok [RBlock.asSnippet
          { before := ["p"], startLine := "@@R myid", id := "myid",
            body := ["l1", "l2"], endLine := "@@E" } ⟨"o", "r", none, ⟨"repo/sub", "main.go"⟩⟩] :=
  c6_one_snippet_per_read_pair.1 tks0 ⟨"o", "r", none, ⟨"repo/sub", "main.go"⟩⟩
    [{ before := ["p"], startLine := "@@R myid", id := "myid",
       body := ["l1", "l2"], endLine := "@@E" }] ["q"] (by decide) (by decide)

theorem splitOnChar_ne_nil (sep : Char) (l : List Char) : splitOnChar sep l ≠ [] := by
  induction l with
  | nil => simp [splitOnChar]
  | cons c r ih =>
    unfold splitOnChar
    by_cases h : c = sep
    · simp [h]
    · rw [if_neg h]
      cases hs : splitOnChar sep r with
      | nil => exact absurd hs ih
      | cons s ss => simp

theorem splitOnChar_no_sep (sep : Char) (l : List Char) (h : ¬ sep ∈ l) :
    splitOnChar sep l = [l] := by
  induction l with
  | nil => rfl
  | cons c r ih =>
    have hc : ¬ c = sep := fun he => h (he ▸ List.mem_cons_self c r)
    have hr : ¬ sep ∈ r := fun hm => h (List.mem_cons_of_mem c hm)
    unfold splitOnChar
    rw [if_neg hc, ih hr]

theorem splitOnChar_two (sep : Char) (l : List Char) (h : sep ∈ l) :
    2 ≤ (splitOnChar sep l).length := by
  induction l with
  | nil => exact absurd h (List.not_mem_nil sep)
  | cons c r ih =>
    by_cases hc : c = sep
    · have h1 : 1 ≤ (splitOnChar sep r).length :=
        List.length_pos.mpr (splitOnChar_ne_nil sep r)
      unfold splitOnChar
      rw [if_pos hc]
      simp only [List.length_cons]
      omega
    · have hr : sep ∈ r := by
        rcases List.mem_cons.mp h with h' | h'
        · exact absurd h'.symm hc
        · exact h'
      have h2 := ih hr
      unfold splitOnChar
      rw [if_neg hc]
      cases hs : splitOnChar sep r with
      | nil => exact absurd hs (splitOnChar_ne_nil sep r)
      | cons s ss =>
        rw [hs] at h2
        simp only [List.length_cons] at h2 ⊢
        omega

theorem getLastD_irrel {α : Type} (l : List α) (h : l ≠ []) (d d' : α) :
    l.getLastD d = l.getLastD d' := by
  cases l with
  | nil => exact absurd rfl h
  | cons a t => rfl

theorem getLastD_map {α β : Type} (f : α → β) (xs : List α) :
    ∀ d : α, (xs.map f).getLastD (f d) = f (xs.getLastD d) := by
  induction xs with
  | nil => intro d; rfl
  | cons a t ih =>
    intro d
    rw [List.map_cons, List.getLastD_cons (f d) (f a) (t.map f), List.getLastD_cons d a t]
    exact ih a

theorem lastSplitStructured (base : List Char) :
    ∀ ext : List Char, ¬ '.' ∈ ext →
    (splitOnChar '.' (base ++ '.' :: ext)).getLastD [] = ext := by
  induction base with
  | nil =>
    intro ext h
    rw [List.nil_append]
    have hsplit : splitOnChar '.' ('.' :: ext) = [] :: splitOnChar '.' ext := by
      simp [splitOnChar]
    rw [hsplit, splitOnChar_no_sep '.' ext h]
    rfl
  | cons c bt ih =>
    intro ext h
    rw [List.cons_append]
    by_cases hc : c = '.'
    · subst hc
      have hsplit : splitOnChar '.' ('.' :: (bt ++ '.' :: ext))
          = [] :: splitOnChar '.' (bt ++ '.' :: ext) := by
        simp [splitOnChar]
      have hL : ([] :: splitOnChar '.' (bt ++ '.' :: ext)).getLastD []
          = (splitOnChar '.' (bt ++ '.' :: ext)).getLastD [] :=
        List.getLastD_cons [] [] (splitOnChar '.' (bt ++ '.' :: ext))
      rw [hsplit, hL]
      exact ih ext h
    · have hne := splitOnChar_ne_nil '.' (bt ++ '.' :: ext)
      cases hs : splitOnChar '.' (bt ++ '.' :: ext) with
      | nil => exact absurd hs hne
      | cons s ss =>
        have h2 : 2 ≤ (splitOnChar '.' (bt ++ '.' :: ext)).length :=
          splitOnChar_two '.' _ (by simp)
        rw [hs] at h2
        have hss : ss ≠ [] := by
          intro he
          rw [he] at h2
          simp at h2
        have hsplit : splitOnChar '.' (c :: (bt ++ '.' :: ext)) = (c :: s) :: ss := by
          unfold splitOnChar
          rw [if_neg hc, hs]
        have hL : ((c :: s) :: ss).getLastD [] = ss.getLastD (c :: s) :=
          List.getLastD_cons [] (c :: s) ss
        rw [hsplit, hL, getLastD_irrel ss hss (c :: s) s]
        have hback : ss.getLastD s = (s :: ss).getLastD [] :=
          (List.getLastD_cons [] s ss).symm
        rw [hback, ← hs]
        exact ih ext h

/-- Written from the spec and claim words (C7): the label of the
source-attribution line is the origin path directory segments after the
first, joined with the filename. -/
def specLinkLabel (s : Snippet) : String :=
  String.intercalate "/" ((jsSplit '/' s.filePath.directory).drop 1 ++ [s.filePath.name])

/-- Written from the spec and claim words (C7): the ref defaults to
`"master"` when the snippet ref is the empty string or undefined. -/
def specRef (s : Snippet) : String :=
  match s.ref with
  | some r => if r = "" then "master" else r
  | none => "master"

/-- Written from the spec and claim words (C7): the source URL
`https://github.com/owner/repo/blob/ref/path-after-first-segment/filename`. -/
def specLinkURL (s : Snippet) : String :=
  String.intercalate "/"
    (["https://github.com", s.owner, s.repo, "blob", specRef s]
      ++ (jsSplit '/' s.filePath.directory).drop 1 ++ [s.filePath.name])

/-- Written from the spec and claim words (C7): the rendering in order — if
the flag is on, one source-attribution line with that label and URL; then an
opening fence tagged with the extension; then every captured line verbatim;
then a closing fence with no language tag. -/
def specRender (s : Snippet) (enableSourceLink : Bool) : List String :=
  (if enableSourceLink then ["[" ++ specLinkLabel s ++ "](" ++ specLinkURL s ++ ")"] else [])
    ++ fmtStartCodeBlock s.ext :: (s.lines ++ [markdownCodeTicks])

/-- C7.  First conjunct: for every snippet and flag value, the rendering the
code produces (`Snippet.fmt` from `Sync.js`) is exactly the rendering the
spec describes (`specRender`), including the `"master"` default for an empty
or undefined ref.  Second conjunct: `determineExtension` on a filename with
a final dot yields exactly the text after that final dot. -/
theorem c7_formatter_rendering :
    (∀ (s : Snippet) (b : Bool), s.fmt b = specRender s b)
    ∧ (∀ base ext : List Char, ¬ '.' ∈ ext →
        determineExtension (String.mk (base ++ '.' :: ext)) = String.mk ext) := by
  constructor
  · intro s b
    rfl
  · intro base ext h
    unfold determineExtension jsSplit
    have hmk : ((String.mk (base ++ '.' :: ext)).toList) = base ++ '.' :: ext := rfl
    rw [hmk]
    have hd : ("" : String) = String.mk [] := rfl
    rw [hd, getLastD_map String.mk _ [], lastSplitStructured base ext h]

/-- Witness for C7 second conjunct at a concrete filename `main.go`; the
first conjunct is hypothesis-free. -/
theorem c7_formatter_rendering_witness :
    determineExtension (String.mk ("main".toList ++ '.' :: "go".toList))
      = String.mk "go".toList :=
  c7_formatter_rendering.2 "main".toList "go".toList (by decide)

/-- C9, counterexample.  The TypeScript variant of `Snippet.fmt` mutates the
stored lines: after the call the snippet's line sequence is not what it was
before. -/
theorem c9_fmt_mutates_counterexample : (snipX.fmtTS true).lines ≠ snipX.lines := by
  decide

/-- C9, amended.  The `Sync.js` `fmt` derives the rendered lines without
touching the snippet (the object after the call is the receiver unchanged),
but the TypeScript variant's `fmt` instead stores the rendering into
`this.lines` — prepending the fence and optional source link and appending
the closing ticks — so its stored line sequence never equals the pre-call
one. -/
theorem c9_fmt_frame (s : Snippet) (flag : Bool) :
    (s.fmtCall flag).2 = s
    ∧ (s.fmtTS flag).lines
        = (if flag then [s.fmtSourceLink] else [])
            ++ fmtStartCodeBlock s.ext :: (s.lines ++ [markdownCodeTicks])
    ∧ (s.fmtTS flag).lines ≠ s.lines := by
  refine ⟨rfl, ?_, ?_⟩
  · unfold Snippet.fmtTS
    cases flag <;> simp
  · unfold Snippet.fmtTS
    intro he
    have hlen := congrArg List.length he
    cases flag <;> simp [List.length_append, List.length_cons] at hlen <;> omega

end SnippetSync
